import Mathlib

/-!
Verification development for `scripts/build_ics.py`: a fixture scraper that
extracts game dates/times/opponents/venues from a fetched HTML page and emits
an iCalendar file.

Modelling conventions (shallow embedding):
  - Python `datetime` values are modelled by the `DateTime` structure below
    (year/month/day/hour/minute/second as `Nat`); comparison of two
    timezone-aware datetimes in the single fixed timezone
    (`pytz.timezone("Asia/Jerusalem")`) is wall-clock lexicographic
    comparison of the six fields, which is what the Python comparison
    computes for two instants localized in the same zone.  `TZ.localize`
    with its default `is_dst=False` never raises, so localization is the
    identity on the wall-clock fields here.
  - Python exceptions that the source catches (`datetime` constructor /
    `strptime` raising `ValueError`) are modelled by `Option`: `none` is
    the raised-and-absorbed case.
  - The HTML-dependent collaborators (BeautifulSoup's `get_text` projection
    and the `neighbors_for` snippet extraction, lines 54 and 68-75 of the
    source) are taken as parameters: `text : String` is the plain-text
    projection of the page and `neighOf : String → String` is the
    neighbourhood function closed over the raw HTML.
  - Character classes `\d`, `\w`, `\s` of the Python regexes are modelled
    over their ASCII ranges plus (for `\w`) the Hebrew block appearing in
    the source's patterns; other Unicode members of those classes are out
    of scope of the claims.
-/

/-- Wall-clock instant in the fixed source timezone (or in UTC for the
`DTSTAMP` value): the six fields of a Python `datetime`. -/
structure DateTime where
  year : Nat
  month : Nat
  day : Nat
  hour : Nat
  minute : Nat
  second : Nat
deriving DecidableEq, Repr

/-- The six fields as a list, so that Python's lexicographic `datetime`
comparison becomes the lexicographic order on equal-length `List Nat`. -/
def DateTime.fields (t : DateTime) : List Nat :=
  [t.year, t.month, t.day, t.hour, t.minute, t.second]

/-- Python `a <= b` on two datetimes localized in the same fixed zone. -/
def dtLeb (a b : DateTime) : Bool := decide (a.fields ≤ b.fields)

/-- Python `a < b` on two datetimes localized in the same fixed zone
(the `dt < now` test on line 113 of the source). -/
def dtLtb (a b : DateTime) : Bool := decide (a.fields < b.fields)

/-- One parsed game: the dict `{start, title, location}` built on lines
147-151 of the source.  The dict carries no end instant. -/
structure Event where
  start : DateTime
  title : String
  location : String
deriving DecidableEq, Repr

/-- Python `\w` (word character) for the texts in play: ASCII alphanumerics,
underscore, and the Hebrew block used by the source's patterns. -/
def isWordChar (c : Char) : Bool :=
  c.isAlphanum || c = '_' || (decide (0x0590 ≤ c.toNat) && decide (c.toNat ≤ 0x05FF))

/-- Python `\s` (whitespace) over ASCII. -/
def isPySpace (c : Char) : Bool :=
  c = ' ' || c = '\t' || c = '\n' || c = '\r' || c = Char.ofNat 11 || c = Char.ofNat 12

/-- ASCII letter, the class `[A-Za-z]`. -/
def isAsciiLetter (c : Char) : Bool :=
  (decide ('A' ≤ c) && decide (c ≤ 'Z')) || (decide ('a' ≤ c) && decide (c ≤ 'z'))

/-- Numeric value of a digit character. -/
def dval (c : Char) : Nat := c.toNat - '0'.toNat

/-- Substring test on character lists (Python `in` on strings, and the
truthiness of `re.search` for a pattern that is a plain alternation of
literals). -/
def containsSub (pat : List Char) : List Char → Bool
  | [] => pat.isEmpty
  | c :: rest => pat.isPrefixOf (c :: rest) || containsSub pat rest

/-- Python `pat in s` (case-sensitive substring test). -/
def containsStr (hay pat : String) : Bool := containsSub pat.data hay.data

/-- Case-insensitive substring test: the truthiness of
`re.search(pat, hay, re.I)` for a literal alternative `pat` (ASCII folding;
the Hebrew literals in the source have no case). -/
def containsCI (hay pat : String) : Bool :=
  containsSub (pat.data.map Char.toLower) (hay.data.map Char.toLower)

/-- Python `str.strip()`: drop whitespace from both ends. -/
def stripChars (l : List Char) : List Char :=
  ((l.dropWhile isPySpace).reverse.dropWhile isPySpace).reverse

/-- Python `str.strip()` on a `String`. -/
def stripStr (s : String) : String := String.mk (stripChars s.data)

/-! ## Date construction (`datetime(y, m, d, hh, mm)` and `strptime`) -/

/-- Gregorian leap-year test, as used by `datetime`'s day-of-month check. -/
def isLeap (y : Nat) : Bool := (y % 4 = 0 && y % 100 ≠ 0) || y % 400 = 0

/-- Number of days in a month of a given year (the `datetime` range check). -/
def daysInMonth (y m : Nat) : Nat :=
  if m = 2 then (if isLeap y then 29 else 28)
  else if m = 4 ∨ m = 6 ∨ m = 9 ∨ m = 11 then 30
  else 31

/-- The `datetime(y, m, d, hh, mm)` constructor (seconds 0): `none` models
the `ValueError` raised on any out-of-range field, which the source catches
on line 110.  `strptime` performs the same range validation. -/
def mkDatetime (y m d hh mm : Nat) : Option DateTime :=
  if 1 ≤ y ∧ y ≤ 9999 ∧ 1 ≤ m ∧ m ≤ 12 ∧ 1 ≤ d ∧ d ≤ daysInMonth y m
     ∧ hh ≤ 23 ∧ mm ≤ 59
  then some ⟨y, m, d, hh, mm, 0⟩ else none

/-! ## Anchored candidate-date matchers (lines 97-99 of the source) -/

/-- Greedy `\d{1,2}` followed by the literal separator `sep`; returns the
numeric value and the remainder after the separator.  Greedy-with-backtrack
collapses to: two digits are taken exactly when the separator follows them. -/
def digits2Sep (sep : Char) : List Char → Option (Nat × List Char)
  | a :: b :: rest =>
    if a.isDigit then
      if b.isDigit then
        match rest with
        | c :: rest2 => if c = sep then some (dval a * 10 + dval b, rest2) else none
        | [] => none
      else if b = sep then some (dval a, rest) else none
    else none
  | _ => none

/-- Exactly `(\d{4})` followed by end of input (the `$` anchor). -/
def year4End : List Char → Option Nat
  | [y1, y2, y3, y4] =>
    if y1.isDigit ∧ y2.isDigit ∧ y3.isDigit ∧ y4.isDigit then
      some (((dval y1 * 10 + dval y2) * 10 + dval y3) * 10 + dval y4)
    else none
  | _ => none

/-- Anchored `re.match(r"^(\d{1,2})<sep>(\d{1,2})<sep>(\d{4})$", cand)`: the
numeric date pattern with separator `/` (m1) or `.` (m3); yields
(day, month, year) as the source converts the groups. -/
def matchNumDate (sep : Char) (l : List Char) : Option (Nat × Nat × Nat) :=
  match digits2Sep sep l with
  | none => none
  | some (d, rest) =>
    match digits2Sep sep rest with
    | none => none
    | some (m, rest2) =>
      match year4End rest2 with
      | none => none
      | some y => some (d, m, y)

/-- Anchored `re.match(r"^([A-Za-z]+)\s(\d{1,2}),\s(\d{4})$", cand)` (m2): spelled
month name, day, year; yields the month-name characters and the numeric day
and year. -/
def matchNameDate (l : List Char) : Option (List Char × Nat × Nat) :=
  let mon := l.takeWhile isAsciiLetter
  if mon.isEmpty then none else
  match l.drop mon.length with
  | sp :: rest =>
    if isPySpace sp then
      match digits2Sep ',' rest with
      | some (d, rest2) =>
        match rest2 with
        | sp2 :: rest3 =>
          if isPySpace sp2 then (year4End rest3).map (fun y => (mon, d, y)) else none
        | [] => none
      | none => none
    else none
  | [] => none

/-- Month number of a full English month name, matched case-insensitively
(the `%B` directive of `strptime` in the C locale). -/
def monthNum (mon : List Char) : Option Nat :=
  let lower := String.mk (mon.map Char.toLower)
  if lower = "january" then some 1
  else if lower = "february" then some 2
  else if lower = "march" then some 3
  else if lower = "april" then some 4
  else if lower = "may" then some 5
  else if lower = "june" then some 6
  else if lower = "july" then some 7
  else if lower = "august" then some 8
  else if lower = "september" then some 9
  else if lower = "october" then some 10
  else if lower = "november" then some 11
  else if lower = "december" then some 12
  else none

/-- Lines 96-111 of the source: try m1, m2, m3 in that order on the exact
candidate string; the first regex that matches commits, and any construction
failure inside the `try` block (bad day/month combination, unknown month
name, out-of-range hour/minute from the neighbourhood time) yields `none`
without consulting the remaining patterns. -/
def parseCandDate (cand : String) (hh mm : Nat) : Option DateTime :=
  match matchNumDate '/' cand.data with
  | some (d, m, y) => mkDatetime y m d hh mm
  | none =>
    match matchNameDate cand.data with
    | some (mon, d, y) =>
      match monthNum mon with
      | some m => mkDatetime y m d hh mm
      | none => none
    | none =>
      match matchNumDate '.' cand.data with
      | some (d, m, y) => mkDatetime y m d hh mm
      | none => none

/-! ## Time recognizer: first match of `\b(\d{1,2}):(\d{2})\b` (line 64) -/

/-- True when the next character cannot extend a word (the trailing `\b`). -/
def noWordAhead : List Char → Bool
  | [] => true
  | c :: _ => ¬ isWordChar c

/-- The time pattern anchored at the current position.  Greedy `\d{1,2}`
with a following `:` collapses to: two digits when `:` is the third
character, one digit when `:` is the second. -/
def tryTimeAt : List Char → Option (Nat × Nat)
  | a :: b :: rest =>
    if a.isDigit then
      if b.isDigit then
        match rest with
        | c :: m1 :: m2 :: rest2 =>
          if c = ':' ∧ m1.isDigit ∧ m2.isDigit ∧ noWordAhead rest2 then
            some (dval a * 10 + dval b, dval m1 * 10 + dval m2)
          else none
        | _ => none
      else if b = ':' then
        match rest with
        | m1 :: m2 :: rest2 =>
          if m1.isDigit ∧ m2.isDigit ∧ noWordAhead rest2 then
            some (dval a, dval m1 * 10 + dval m2)
          else none
        | _ => none
      else none
    else none
  | _ => none

/-- The leading `\b`: the match starts with a digit, so the boundary holds
exactly when the previous character (if any) is not a word character. -/
def boundaryBefore : Option Char → Bool
  | none => true
  | some p => ¬ isWordChar p

/-- Left-to-right scan for the first match of the time pattern, carrying the
previous character for the word-boundary test. -/
def findTimeAux : Option Char → List Char → Option (Nat × Nat)
  | _, [] => none
  | prev, c :: rest =>
    match (if boundaryBefore prev then tryTimeAt (c :: rest) else none) with
    | some t => some t
    | none => findTimeAux (some c) rest

/-- Lines 88-93 of the source: first `HH:MM` match in the neighbourhood,
defaulting to `(0, 0)` when there is none. -/
def findTime (s : String) : Nat × Nat := (findTimeAux none s.data).getD (0, 0)

/-! ## A small backtracking matcher for the two opponent regexes

The opponent patterns (lines 129 and 134 of the source) combine literals,
greedy character-class repetition and an ordered alternation, so they are
embedded as data and run by a backtracking matcher that mirrors the Python
engine: leftmost starting position wins; at a position, a greedy repetition
tries the longest repeat first and backs off one character at a time; an
alternation tries its branches in written order.  The matcher is fuelled to
keep it structurally recursive; `reFuel` strictly exceeds the depth of any
backtracking chain for these patterns (one fuel unit per atom step, per
repeat-count decrement — at most the input length plus one per repetition
atom — and per alternation branch). -/

inductive Atom where
  | lit (s : List Char)
  | litCI (s : List Char)
  | alts (ss : List (List Char))
  | star (p : Char → Bool)
  | plus (p : Char → Bool)
  | plusCap (p : Char → Bool)
  | starK (p : Char → Bool) (k : Nat) (mn : Nat)
  | capK (p : Char → Bool) (k : Nat)

/-- Case-insensitive literal prefix test (ASCII folding), for a literal
under `re.I`. -/
def ciPrefixAt (s l : List Char) : Bool :=
  (s.map Char.toLower).isPrefixOf (l.map Char.toLower) && decide (s.length ≤ l.length)

/-- Run the atom sequence at the current position; on success, return the
text consumed by the (unique) capturing repetition.  `starK`/`capK` are the
running forms of a repetition that still has `k` characters taken and may
back off down to `mn`. -/
def matchA : Nat → List Atom → List Char → Option (List Char)
  | 0, _, _ => none
  | _ + 1, [], _ => some []
  | fuel + 1, Atom.lit s :: rest, l =>
    if s.isPrefixOf l then matchA fuel rest (l.drop s.length) else none
  | fuel + 1, Atom.litCI s :: rest, l =>
    if ciPrefixAt s l then matchA fuel rest (l.drop s.length) else none
  | fuel + 1, Atom.alts ss :: rest, l =>
    match ss with
    | [] => none
    | s :: more =>
      match (if s.isPrefixOf l then matchA fuel rest (l.drop s.length) else none) with
      | some c => some c
      | none => matchA fuel (Atom.alts more :: rest) l
  | fuel + 1, Atom.star p :: rest, l =>
    matchA fuel (Atom.starK p ((l.takeWhile p).length) 0 :: rest) l
  | fuel + 1, Atom.plus p :: rest, l =>
    let mx := (l.takeWhile p).length
    if mx = 0 then none else matchA fuel (Atom.starK p mx 1 :: rest) l
  | fuel + 1, Atom.plusCap p :: rest, l =>
    let mx := (l.takeWhile p).length
    if mx = 0 then none else matchA fuel (Atom.capK p mx :: rest) l
  | fuel + 1, Atom.starK p k mn :: rest, l =>
    match matchA fuel rest (l.drop k) with
    | some c => some c
    | none => if k ≤ mn then none else matchA fuel (Atom.starK p (k - 1) mn :: rest) l
  | fuel + 1, Atom.capK p k :: rest, l =>
    match matchA fuel rest (l.drop k) with
    | some _ => some (l.take k)
    | none => if k ≤ 1 then none else matchA fuel (Atom.capK p (k - 1) :: rest) l

/-- Leftmost search: try the pattern at every position from the left, full
backtracking at each position. -/
def searchA (fuel : Nat) (atoms : List Atom) : List Char → Option (List Char)
  | [] => matchA fuel atoms []
  | c :: rest =>
    match matchA fuel atoms (c :: rest) with
    | some cap => some cap
    | none => searchA fuel atoms rest

/-- Fuel bound: comfortably larger than the longest backtracking chain of
the patterns below on an input of this length. -/
def reFuel (atoms : List Atom) (l : List Char) : Nat :=
  (atoms.length + 4) * (l.length + 8)

/-- Runs `re.search` of an atom pattern over a string. -/
def reSearch (atoms : List Atom) (s : String) : Option (List Char) :=
  searchA (reFuel atoms s.data) atoms s.data

/-- The capture class `[A-Za-z \-’'\.]` of both opponent patterns. -/
def oppClass (c : Char) : Bool :=
  isAsciiLetter c || c = ' ' || c = '-' || c = Char.ofNat 0x2019 || c = Char.ofNat 39 || c = '.'

/-- The class `[ A-Za-z]` of the second opponent pattern. -/
def spaceLetter (c : Char) : Bool := c = ' ' || isAsciiLetter c

/-- Pattern `Vs\s+([A-Za-z \-’'\.]+)` with `re.I` (line 129). -/
def vsAtoms : List Atom :=
  [Atom.litCI ['V', 's'], Atom.plus isPySpace, Atom.plusCap oppClass]

/-- Pattern `Maccabi[ A-Za-z]*\s*(?:vs|VS|V)\s*([A-Za-z \-’'\.]+)`, case-sensitive
(line 134). -/
def altAtoms : List Atom :=
  [Atom.lit "Maccabi".data, Atom.star spaceLetter, Atom.star isPySpace,
   Atom.alts [['v', 's'], ['V', 'S'], ['V']], Atom.star isPySpace,
   Atom.plusCap oppClass]

/-! ## Event classifier (lines 116-151) -/

/-- Competition hints (lines 122-125): the first alternation is
`Euro ?League|יורוליג|EUROLEAGUE` under `re.I`, the second is
`Winner|ליגת העל|Isra(el)? League|Ligat|League Cup|State Cup` under `re.I`;
both are alternations of literals, so their `re.search` truthiness is a
case-insensitive substring test per alternative. -/
def detectComp (neigh : String) : Option String :=
  if containsCI neigh "euroleague" || containsCI neigh "euro league"
     || containsCI neigh "יורוליג" then
    some "EuroLeague"
  else if containsCI neigh "winner" || containsCI neigh "ליגת העל"
     || containsCI neigh "isra league" || containsCI neigh "israel league"
     || containsCI neigh "ligat" || containsCI neigh "league cup"
     || containsCI neigh "state cup" then
    some "Winner League"
  else none

/-- Opponent detection (lines 128-136): the `Vs` pattern first; only when
its search fails entirely is the `Maccabi ... vs` pattern tried; the
captured group is stripped of surrounding whitespace. -/
def detectOpp (neigh : String) : Option String :=
  match reSearch vsAtoms neigh with
  | some cap => some (stripStr (String.mk cap))
  | none =>
    match reSearch altAtoms neigh with
    | some cap => some (stripStr (String.mk cap))
    | none => none

/-- Venue hints (lines 142-145): two alternations of literals under `re.I`.
-/
def detectLoc (neigh : String) : Option String :=
  if containsCI neigh "menora" || containsCI neigh "היכל מנורה"
     || containsCI neigh "yad eliyahu" || containsCI neigh "tel aviv" then
    some "Menora Mivtachim Arena, Tel Aviv"
  else if containsCI neigh "belgrade" || containsCI neigh "stark"
     || containsCI neigh "pionir" || containsCI neigh "aleksandar nikolic"
     || containsCI neigh "ניקוליץ" || containsCI neigh "בלגרד" then
    some "Aleksandar Nikolic Hall, Belgrade"
  else none

/-- Lines 116-151: assemble the event dict from the parsed instant and the
neighbourhood text.  An opponent capture that strips to the empty string is
falsy in Python, so the default title survives it; `location or ""` maps a
missing venue to the empty string. -/
def mkEvent (dt : DateTime) (neigh : String) : Event :=
  let comp := detectComp neigh
  let opp := detectOpp neigh
  let title :=
    match opp with
    | some o =>
      if o ≠ "" then
        if containsStr o "Maccabi" then o ++ " vs Maccabi TLV"
        else "Maccabi TLV vs " ++ o
      else "Maccabi TLV – Game"
    | none => "Maccabi TLV – Game"
  { start := dt
    title := match comp with | none => title | some c => title ++ " (" ++ c ++ ")"
    location := (detectLoc neigh).getD "" }

/-! ## Per-candidate processing and the event-builder pipeline -/

/-- The body of the candidate loop (lines 85-151): extract the
neighbourhood, take the first time match (default `0:0`), parse the
candidate date, and drop the candidate when parsing failed or the instant
is strictly before `now` (`if not dt or dt < now: continue`); otherwise
classify and build the event. -/
def processCandidate (now : DateTime) (neighOf : String → String) (cand : String) :
    Option Event :=
  let neigh := neighOf cand
  let t := findTime neigh
  match parseCandDate cand t.1 t.2 with
  | none => none
  | some dt => if dtLtb dt now then none else some (mkEvent dt neigh)

/-- Keep-first deduplication of the candidate strings: the `set()` on line
78 (order is irrelevant, the set is sorted before iteration). -/
def dedupStrAux (seen : List String) : List String → List String
  | [] => []
  | s :: rest =>
    if s ∈ seen then dedupStrAux seen rest
    else s :: dedupStrAux (s :: seen) rest

/-- Code-point lexicographic comparison of character lists: Python's string
comparison. -/
def cpLeb : List Char → List Char → Bool
  | [], _ => true
  | _ :: _, [] => false
  | a :: as, b :: bs => if a = b then cpLeb as bs else decide (a < b)

/-- Python `a <= b` on strings. -/
def strLeb (a b : String) : Bool := cpLeb a.data b.data

/-- Insert into a sorted list of strings (code-point lexicographic order,
Python's string comparison). -/
def insertStr (s : String) : List String → List String
  | [] => [s]
  | t :: rest => if strLeb s t then s :: t :: rest else t :: insertStr s rest

/-- Sorting `sorted(candidates)` (line 85): the candidates are distinct, so any
correct comparison sort computes this list; insertion sort is used here. -/
def sortStr (l : List String) : List String := l.foldr insertStr []

/-- Rendering `datetime.isoformat()` of a localized instant, used as the first
component of the dedup key on line 156.  The library appends a fixed-format
UTC-offset suffix that is itself a function of the instant, so it cannot
distinguish keys that agree on the six fields; it is omitted here. -/
def isoformat (t : DateTime) : String :=
  let pad2 := fun (n : Nat) => (if n < 10 then "0" else "") ++ toString n
  toString t.year ++ "-" ++ pad2 t.month ++ "-" ++ pad2 t.day ++ "T"
    ++ pad2 t.hour ++ ":" ++ pad2 t.minute ++ ":" ++ pad2 t.second

/-- The within-batch dedup key `(e["start"].isoformat(), e["title"])`
(line 156). -/
def evKeyIso (e : Event) : String × String := (isoformat e.start, e.title)

/-- Lines 154-158: `uniq = {}` filled with `if key not in uniq`, then
`uniq.values()` — keep-first deduplication in iteration order. -/
def dedupFirst (seen : List (String × String)) : List Event → List Event
  | [] => []
  | e :: rest =>
    if evKeyIso e ∈ seen then dedupFirst seen rest
    else e :: dedupFirst (evKeyIso e :: seen) rest

/-- Stable insert by start instant: the new element goes before the first
element that is not strictly earlier, so elements with equal keys keep
their original relative order. -/
def insertEv (e : Event) : List Event → List Event
  | [] => [e]
  | t :: rest => if dtLeb e.start t.start then e :: t :: rest else t :: insertEv e rest

/-- Sorting `sorted(..., key=lambda x: x["start"])` (lines 160 and 211): Python's
sort is stable, and stable sorting by a total preorder has a unique result,
computed here by stable insertion sort. -/
def sortEvents (l : List Event) : List Event := l.foldr insertEv []

/-- Core of `parse_events` from the candidate list onward (lines 83-160): iterate
the sorted deduplicated candidates, keep the successfully parsed future
events, deduplicate by (isoformat of start, title) keeping the first
occurrence, sort ascending by start, and truncate to 200. -/
def parseEventsFrom (cands : List String) (neighOf : String → String)
    (now : DateTime) : List Event :=
  let events := (sortStr (dedupStrAux [] cands)).filterMap (processCandidate now neighOf)
  (sortEvents (dedupFirst [] events)).take 200

/-! ## Candidate-date discovery (`finditer`, lines 58-81) -/

/-- Numeric date pattern `\b(\d{1,2})<sep>(\d{1,2})<sep>(\d{4})\b` anchored
at the current position (`prev` is the character before it); returns the
matched substring. -/
def tryNumDateAt (sep : Char) (prev : Option Char) (l : List Char) : Option (List Char) :=
  if ¬ boundaryBefore prev then none else
  match l with
  | a :: b :: rest =>
    if a.isDigit then
      if b.isDigit then
      match rest with
      | c :: rest2 => if c = sep then (tryNumTail sep rest2).map (fun t => a :: b :: c :: t) else none
      | [] => none
      else if b = sep then (tryNumTail sep rest).map (fun t => a :: b :: t) else none
    else none
  | _ => none
where
  /-- After `\d{1,2}<sep>`: the remaining `(\d{1,2})<sep>(\d{4})\b`. -/
  tryNumTail (sep : Char) (l : List Char) : Option (List Char) :=
    match l with
    | a :: b :: rest =>
      if a.isDigit then
        if b.isDigit then
          match rest with
          | c :: rest2 => if c = sep then (tryY4 rest2).map (fun t => a :: b :: c :: t) else none
          | [] => none
        else if b = sep then (tryY4 rest).map (fun t => a :: b :: t) else none
      else none
    | _ => none
  /-- Year tail `(\d{4})\b`: four digits not followed by a word character. -/
  tryY4 (l : List Char) : Option (List Char) :=
    match l with
    | y1 :: y2 :: y3 :: y4 :: rest =>
      if y1.isDigit ∧ y2.isDigit ∧ y3.isDigit ∧ y4.isDigit ∧ noWordAhead rest then
        some [y1, y2, y3, y4]
      else none
    | _ => none

/-- Spelled-month pattern `\b([A-Za-z]+)\s(\d{1,2}),\s(\d{4})\b` anchored at
the current position; greedy `[A-Za-z]+` cannot backtrack into the
following `\s`.  Returns the matched substring. -/
def tryNameDateAt (prev : Option Char) (l : List Char) : Option (List Char) :=
  if ¬ boundaryBefore prev then none else
  let mon := l.takeWhile isAsciiLetter
  if mon.isEmpty then none else
  match l.drop mon.length with
  | sp :: rest =>
    if isPySpace sp then
      match rest with
      | a :: b :: rest2 =>
        if a.isDigit then
          if b.isDigit then
            match rest2 with
            | c :: rest3 =>
              if c = ',' then (tryNameTail rest3).map
                (fun t => mon ++ sp :: a :: b :: c :: t)
              else none
            | [] => none
          else if b = ',' then (tryNameTail rest2).map (fun t => mon ++ sp :: a :: b :: t)
          else none
        else none
      | _ => none
    else none
  | [] => none
where
  /-- After the comma: `\s(\d{4})\b`. -/
  tryNameTail (l : List Char) : Option (List Char) :=
    match l with
    | sp2 :: y1 :: y2 :: y3 :: y4 :: rest =>
      if isPySpace sp2 ∧ y1.isDigit ∧ y2.isDigit ∧ y3.isDigit ∧ y4.isDigit
         ∧ noWordAhead rest then
        some [sp2, y1, y2, y3, y4]
      else none
    | _ => none

/-- Non-overlapping left-to-right scan of one pattern over the text
(`pat.finditer(text)`): after a match, scanning resumes past it; the fuel
is the length of the scanned text, and each step consumes at least one
character. -/
def scanAux (tryAt : Option Char → List Char → Option (List Char)) :
    Nat → Option Char → List Char → List String
  | 0, _, _ => []
  | _ + 1, _, [] => []
  | fuel + 1, prev, c :: rest =>
    match tryAt prev (c :: rest) with
    | some m =>
      String.mk m :: scanAux tryAt fuel (some (m.getLastD c)) ((c :: rest).drop m.length)
    | none => scanAux tryAt fuel (some c) rest

/-- All matched substrings of one pattern, in order. -/
def scanPattern (tryAt : Option Char → List Char → Option (List Char))
    (text : String) : List String :=
  scanAux tryAt text.data.length none text.data

/-- Lines 58-81: the three date patterns are run over the plain-text
projection in order (slash, spelled-month, dot) and the matched substrings
are collected into a set — modelled as the concatenated match lists, which
the pipeline deduplicates and sorts before use. -/
def findCandidateDates (text : String) : List String :=
  scanPattern (tryNumDateAt '/') text
    ++ scanPattern tryNameDateAt text
    ++ scanPattern (tryNumDateAt '.') text

/-- Full `parse_events` (lines 41-160) from the plain-text projection of the
page: candidate discovery followed by the candidate pipeline. -/
def parse_events (text : String) (neighOf : String → String) (now : DateTime) :
    List Event :=
  parseEventsFrom (findCandidateDates text) neighOf now

/-! ## Calendar serializer (`build_ics`, lines 163-193) -/

/-- Python `s.replace(old, new)` for a single-character `old`: every
occurrence is replaced, left to right. -/
def replaceChar (old : Char) (rep : List Char) : List Char → List Char
  | [] => []
  | c :: rest => (if c = old then rep else [c]) ++ replaceChar old rep rest

/-- Escaping `ics_escape` (lines 164-165): the four replacements in the source's
order — backslash first, then semicolon, comma and newline. -/
def ics_escape (s : String) : String :=
  let r1 := replaceChar '\\' ['\\', '\\'] s.data
  let r2 := replaceChar ';' ['\\', ';'] r1
  let r3 := replaceChar ',' ['\\', ','] r2
  let r4 := replaceChar '\n' ['\\', 'n'] r3
  String.mk r4

/-- Zero-pad to two digits (`%m`, `%d`, `%H`, `%M`, `%S`). -/
def pad2 (n : Nat) : String := (if n < 10 then "0" else "") ++ toString n

/-- Zero-pad to four digits (`%Y`). -/
def pad4 (n : Nat) : String :=
  (if n < 10 then "000" else if n < 100 then "00" else if n < 1000 then "0" else "")
    ++ toString n

/-- Format `strftime("%Y%m%dT%H%M%S")` (lines 178 and 185). -/
def fmtBasic (t : DateTime) : String :=
  pad4 t.year ++ pad2 t.month ++ pad2 t.day ++ "T" ++ pad2 t.hour ++ pad2 t.minute
    ++ pad2 t.second

/-- The fixed `VCALENDAR` header lines (lines 167-175). -/
def icsHeader (prodid : String) : List String :=
  ["BEGIN:VCALENDAR",
   "VERSION:2.0",
   "PRODID:" ++ prodid,
   "CALSCALE:GREGORIAN",
   "METHOD:PUBLISH",
   "X-WR-CALNAME:Maccabi Tel Aviv BC (Auto)",
   "X-WR-TIMEZONE:Asia/Jerusalem"]

/-- One `VEVENT` block (lines 177-190).  `titleHash` stands for Python's
run-dependent `abs(hash(title))`; `utcnow` is the UTC generation instant of
`datetime.utcnow()` (taken per run here; the source re-reads the clock per
event, indistinguishable within one run at second granularity).  The
`LOCATION` line is emitted only when the escaped location is truthy, i.e.
non-empty. -/
def eventLines (titleHash : String → Nat) (utcnow : DateTime) (ev : Event) :
    List String :=
  let dtstart := fmtBasic ev.start
  let uid := "maccabi-" ++ dtstart ++ "-" ++ toString (titleHash ev.title) ++ "@ofir"
  let summary := ics_escape ev.title
  let location := ics_escape ev.location
  ["BEGIN:VEVENT",
   "UID:" ++ uid,
   "DTSTAMP:" ++ fmtBasic utcnow ++ "Z",
   "DTSTART;TZID=Asia/Jerusalem:" ++ dtstart,
   "SUMMARY:" ++ summary]
  ++ (if location ≠ "" then ["LOCATION:" ++ location] else [])
  ++ ["END:VEVENT"]

/-- All record lines of the document: header, the per-event blocks in
order, and the closing line (lines 167-192). -/
def icsLines (titleHash : String → Nat) (utcnow : DateTime) (events : List Event)
    (prodid : String) : List String :=
  icsHeader prodid
    ++ (events.map (eventLines titleHash utcnow)).flatten
    ++ ["END:VCALENDAR"]

/-- Python `sep.join(lines)`. -/
def joinSep (sep : String) : List String → String
  | [] => ""
  | [a] => a
  | a :: b :: rest => a ++ sep ++ joinSep sep (b :: rest)

/-- Serializer `build_ics` (line 193): `"\r\n".join(lines) + "\r\n"`.  The source
gives `prodid` a fixed default product identifier string. -/
def build_ics (titleHash : String → Nat) (utcnow : DateTime) (events : List Event)
    (prodid : String) : String :=
  joinSep "\r\n" (icsLines titleHash utcnow events prodid) ++ "\r\n"

/-! ## Orchestrator (`main`, lines 196-216) -/

/-- The cross-competition dedup key `(e["start"], e["title"])` on line 211
(the datetime object itself, not its ISO string). -/
def evKeyDt (e : Event) : DateTime × String := (e.start, e.title)

/-- One assignment `d[k] = v` of the dict comprehension: a repeated key
keeps its original position but takes the new value. -/
def dictInsert (k : DateTime × String) (v : Event) :
    List ((DateTime × String) × Event) → List ((DateTime × String) × Event)
  | [] => [(k, v)]
  | (k2, v2) :: rest =>
    if k = k2 then (k2, v) :: rest else (k2, v2) :: dictInsert k v rest

/-- Merge dict `{(e["start"], e["title"]): e for e in all_events}.values()` (line 211):
insertion-ordered keys, each mapped to the last event seen with that key. -/
def mergeDict (all : List Event) : List Event :=
  (all.foldl (fun d e => dictInsert (evKeyDt e) e d) []).map (·.2)

/-- Line 211 in full: merged events are re-deduplicated through the dict
comprehension and sorted by start instant (no truncation here). -/
def mainMerge (all : List Event) : List Event := sortEvents (mergeDict all)

/-- Season parameter `current_season_cyear` (lines 24-29): the second year of the season —
`year + 1` from July onwards, else `year`. -/
def current_season_cyear (now : DateTime) : Nat :=
  if 7 ≤ now.month then now.year + 1 else now.year

/-! ## Specification-side definitions (for refinement statements only) -/

/-- Modelled from the spec: per-character calendar-text escaping — each of
backslash, semicolon, comma and newline is individually replaced by its
escaped form, other characters pass through.  Used to state that the
source's four sequential passes equal one individual-character escape with
no double-escaping. -/
def escCharSpec (c : Char) : List Char :=
  if c = '\\' then ['\\', '\\']
  else if c = ';' then ['\\', ';']
  else if c = ',' then ['\\', ',']
  else if c = '\n' then ['\\', 'n']
  else [c]

/-- Modelled from the spec: decoder for the escaping convention — a
backslash followed by a character stands for that character (with `n` for
newline).  A left inverse of the escape establishes that no double-escaping
occurs. -/
def unescChars : List Char → List Char
  | [] => []
  | c :: rest =>
    if c = '\\' then
      match rest with
      | [] => []
      | d :: rest2 => (if d = 'n' then '\n' else d) :: unescChars rest2
    else c :: unescChars rest

/-- Modelled from the spec: concatenation of a list of record strings, to
state that the serialized document is exactly the concatenation of every
line followed by CRLF. -/
def concatAll : List String → String
  | [] => ""
  | a :: rest => a ++ concatAll rest

/-! ## Order and sorting lemmas -/

theorem dtLeb_total (a b : DateTime) : dtLeb a b = true ∨ dtLeb b a = true := by
  simp only [dtLeb, decide_eq_true_eq]
  exact le_total a.fields b.fields

theorem dtLeb_trans {a b c : DateTime} (h1 : dtLeb a b = true) (h2 : dtLeb b c = true) :
    dtLeb a c = true := by
  simp only [dtLeb, decide_eq_true_eq] at *
  exact le_trans h1 h2

theorem dtLtb_false_iff (a b : DateTime) : dtLtb a b = false ↔ dtLeb b a = true := by
  simp only [dtLtb, dtLeb, decide_eq_true_eq, decide_eq_false_iff_not]
  exact not_lt

theorem mkEvent_start (dt : DateTime) (neigh : String) : (mkEvent dt neigh).start = dt := rfl

theorem insertEv_perm (e : Event) (l : List Event) :
    List.Perm (insertEv e l) (e :: l) := by
  induction l with
  | nil => exact List.Perm.refl _
  | cons t rest ih =>
    by_cases h : dtLeb e.start t.start = true
    · rw [show insertEv e (t :: rest) = e :: t :: rest from by simp [insertEv, h]]
    · rw [show insertEv e (t :: rest) = t :: insertEv e rest from by simp [insertEv, h]]
      exact List.Perm.trans (List.Perm.cons t ih) (List.Perm.swap e t rest)

theorem sortEvents_perm (l : List Event) : List.Perm (sortEvents l) l := by
  induction l with
  | nil => exact List.Perm.refl _
  | cons e rest ih =>
    exact List.Perm.trans (insertEv_perm e (sortEvents rest)) (List.Perm.cons e ih)

theorem mem_insertEv {x e : Event} {l : List Event} (h : x ∈ insertEv e l) :
    x = e ∨ x ∈ l := by
  have := (insertEv_perm e l).mem_iff.mp h
  simpa using this

theorem insertEv_pairwise {e : Event} {l : List Event}
    (h : List.Pairwise (fun a b => dtLeb a.start b.start = true) l) :
    List.Pairwise (fun a b => dtLeb a.start b.start = true) (insertEv e l) := by
  induction l with
  | nil => simp [insertEv]
  | cons t rest ih =>
    have ht : ∀ b ∈ rest, dtLeb t.start b.start = true := (List.pairwise_cons.mp h).1
    have hrest := (List.pairwise_cons.mp h).2
    by_cases hc : dtLeb e.start t.start = true
    · rw [show insertEv e (t :: rest) = e :: t :: rest from by simp [insertEv, hc]]
      refine List.pairwise_cons.mpr ⟨?_, h⟩
      intro b hb
      rcases List.mem_cons.mp hb with rfl | hb2
      · exact hc
      · exact dtLeb_trans hc (ht b hb2)
    · rw [show insertEv e (t :: rest) = t :: insertEv e rest from by simp [insertEv, hc]]
      refine List.pairwise_cons.mpr ⟨?_, ih hrest⟩
      intro b hb
      rcases mem_insertEv hb with rfl | hb2
      · rcases dtLeb_total t.start b.start with h1 | h1
        · exact h1
        · exact absurd h1 hc
      · exact ht b hb2

theorem sortEvents_pairwise (l : List Event) :
    List.Pairwise (fun a b => dtLeb a.start b.start = true) (sortEvents l) := by
  induction l with
  | nil => simp [sortEvents]
  | cons e rest ih => exact insertEv_pairwise ih

/-! ## Escaping lemmas -/

theorem replaceChar_append (old : Char) (rep : List Char) (a b : List Char) :
    replaceChar old rep (a ++ b) = replaceChar old rep a ++ replaceChar old rep b := by
  induction a with
  | nil => rfl
  | cons c rest ih => simp [replaceChar, ih]

theorem escape_chain_eq_flatMap (l : List Char) :
    replaceChar '\n' ['\\', 'n']
      (replaceChar ',' ['\\', ',']
        (replaceChar ';' ['\\', ';']
          (replaceChar '\\' ['\\', '\\'] l)))
      = (l.map escCharSpec).flatten := by
  induction l with
  | nil => rfl
  | cons c rest ih =>
    have hstep : ∀ x : Char,
        replaceChar '\\' ['\\', '\\'] (x :: rest)
          = (if x = '\\' then ['\\', '\\'] else [x]) ++ replaceChar '\\' ['\\', '\\'] rest := by
      intro x
      simp [replaceChar]
    rw [hstep, replaceChar_append, replaceChar_append, replaceChar_append]
    rw [List.map_cons, List.flatten_cons, ih]
    congr 1
    by_cases h1 : c = '\\'
    · subst h1; rfl
    · by_cases h2 : c = ';'
      · subst h2; rfl
      · by_cases h3 : c = ','
        · subst h3; rfl
        · by_cases h4 : c = '\n'
          · subst h4; rfl
          · simp [h1, escCharSpec, h2, h3, h4, replaceChar]

theorem unesc_escape (l : List Char) : unescChars ((l.map escCharSpec).flatten) = l := by
  induction l with
  | nil => rfl
  | cons c rest ih =>
    rw [List.map_cons, List.flatten_cons]
    by_cases h1 : c = '\\'
    · subst h1; simpa [escCharSpec, unescChars] using ih
    · by_cases h2 : c = ';'
      · subst h2; simpa [escCharSpec, unescChars] using ih
      · by_cases h3 : c = ','
        · subst h3; simpa [escCharSpec, unescChars] using ih
        · by_cases h4 : c = '\n'
          · subst h4; simpa [escCharSpec, unescChars] using ih
          · simp only [escCharSpec, h1, h2, h3, h4, if_false, List.singleton_append]
            rw [show unescChars (c :: (rest.map escCharSpec).flatten)
                  = c :: unescChars ((rest.map escCharSpec).flatten) from by
                rw [unescChars.eq_def]
                simp [h1]]
            rw [ih]

/-! ## Join lemma -/

theorem strAppend_assoc (a b c : String) : a ++ b ++ c = a ++ (b ++ c) := by
  apply String.ext
  simp

theorem joinSep_concatAll (sep : String) (a : String) (rest : List String) :
    joinSep sep (a :: rest) ++ sep = concatAll ((a :: rest).map (fun l => l ++ sep)) := by
  induction rest generalizing a with
  | nil =>
    show a ++ sep = (a ++ sep) ++ concatAll []
    apply String.ext
    simp [concatAll]
  | cons b t ih =>
    show (a ++ sep ++ joinSep sep (b :: t)) ++ sep
        = (a ++ sep) ++ concatAll ((b :: t).map (fun l => l ++ sep))
    rw [← ih b, strAppend_assoc]

theorem joinSep_concatAll_ne (sep : String) (L : List String) (h : L ≠ []) :
    joinSep sep L ++ sep = concatAll (L.map (fun l => l ++ sep)) := by
  cases L with
  | nil => exact absurd rfl h
  | cons a rest => exact joinSep_concatAll sep a rest

/-! ## Bad-time lemmas (for claim C10) -/

theorem mkDatetime_none_of_badTime (y m d hh mm : Nat) (h : 24 ≤ hh ∨ 60 ≤ mm) :
    mkDatetime y m d hh mm = none := by
  simp only [mkDatetime, ite_eq_right_iff]
  intro hc
  omega

theorem parseCandDate_none_of_badTime (cand : String) (hh mm : Nat)
    (h : 24 ≤ hh ∨ 60 ≤ mm) : parseCandDate cand hh mm = none := by
  unfold parseCandDate
  cases hm1 : matchNumDate '/' cand.data with
  | some v =>
    obtain ⟨d, m, y⟩ := v
    simp [mkDatetime_none_of_badTime _ _ _ _ _ h]
  | none =>
    cases hm2 : matchNameDate cand.data with
    | some v =>
      obtain ⟨mon, d, y⟩ := v
      cases hmn : monthNum mon with
      | some m => simp [hmn, mkDatetime_none_of_badTime _ _ _ _ _ h]
      | none => simp [hmn]
    | none =>
      cases hm3 : matchNumDate '.' cand.data with
      | some v =>
        obtain ⟨d, m, y⟩ := v
        simp [mkDatetime_none_of_badTime _ _ _ _ _ h]
      | none => rfl

/-! ## Per-candidate lemmas (for claims C2 and C8) -/

theorem processCandidate_eq (now : DateTime) (neighOf : String → String) (cand : String) :
    processCandidate now neighOf cand
      = match parseCandDate cand (findTime (neighOf cand)).1 (findTime (neighOf cand)).2 with
        | none => none
        | some dt => if dtLtb dt now then none else some (mkEvent dt (neighOf cand)) := rfl

theorem processCandidate_some_start {now : DateTime} {neighOf : String → String}
    {cand : String} {ev : Event} (h : processCandidate now neighOf cand = some ev) :
    dtLtb ev.start now = false := by
  rw [processCandidate_eq] at h
  cases hp : parseCandDate cand (findTime (neighOf cand)).1 (findTime (neighOf cand)).2 with
  | none => rw [hp] at h; cases h
  | some dt =>
    rw [hp] at h
    dsimp only at h
    by_cases hlt : dtLtb dt now = true
    · rw [if_pos hlt] at h; cases h
    · rw [if_neg hlt] at h
      cases h
      rw [mkEvent_start]
      exact Bool.not_eq_true _ |>.mp hlt

theorem dedupFirst_subset {e : Event} :
    ∀ (l : List Event) (seen : List (String × String)), e ∈ dedupFirst seen l → e ∈ l := by
  intro l
  induction l with
  | nil => intro seen h; cases h
  | cons x rest ih =>
    intro seen h
    by_cases hx : evKeyIso x ∈ seen
    · rw [show dedupFirst seen (x :: rest) = dedupFirst seen rest from by
        simp [dedupFirst, hx]] at h
      exact List.mem_cons_of_mem x (ih seen h)
    · rw [show dedupFirst seen (x :: rest) = x :: dedupFirst (evKeyIso x :: seen) rest from by
        simp [dedupFirst, hx]] at h
      rcases List.mem_cons.mp h with rfl | h2
      · exact List.mem_cons_self _ _
      · exact List.mem_cons_of_mem x (ih _ h2)

theorem mem_parseEventsFrom {e : Event} {cands : List String}
    {neighOf : String → String} {now : DateTime}
    (h : e ∈ parseEventsFrom cands neighOf now) :
    ∃ c, processCandidate now neighOf c = some e := by
  unfold parseEventsFrom at h
  have h1 := List.mem_of_mem_take h
  have h2 := (sortEvents_perm _).mem_iff.mp h1
  have h3 := dedupFirst_subset _ _ h2
  rcases List.mem_filterMap.mp h3 with ⟨c, _, hc⟩
  exact ⟨c, hc⟩

/-! ## Claim theorems -/

/-- C4: the serializer's escaping replaces backslash, semicolon, comma and
newline individually, backslash first, so that it equals a single
per-character escape pass (hence nothing introduced by a later substitution
is escaped again — witnessed by the decoding left inverse), and the title
with a semicolon, comma and backslash serializes as each character
individually escaped. -/
theorem c4_escaping :
    (∀ s : String, ics_escape s = String.mk ((s.data.map escCharSpec).flatten))
    ∧ (∀ s : String, unescChars (ics_escape s).data = s.data)
    ∧ ics_escape "A; B, C\\" = "A\\; B\\, C\\\\" := by
  have h1 : ∀ s : String, ics_escape s = String.mk ((s.data.map escCharSpec).flatten) := by
    intro s
    show String.mk _ = _
    rw [escape_chain_eq_flatMap]
  refine ⟨h1, ?_, by decide⟩
  intro s
  rw [h1 s]
  exact unesc_escape s.data

/-- C5: the serialized calendar text is exactly the concatenation of every
record line followed by CRLF — every line, the final one included, is
CRLF-terminated. -/
theorem c5_crlf_lines :
    ∀ (th : String → Nat) (un : DateTime) (evs : List Event) (prodid : String),
      build_ics th un evs prodid
        = concatAll ((icsLines th un evs prodid).map (fun l => l ++ "\r\n")) := by
  intro th un evs prodid
  exact joinSep_concatAll_ne _ _ (by simp [icsLines, icsHeader])

/-- C7: the season-year parameter is a pure function of the current date —
from July on it is the current year plus one, before July the current year;
in particular June 30 maps to the current year and July 1 to the next. -/
theorem c7_season_year : ∀ (now : DateTime),
    (7 ≤ now.month → current_season_cyear now = now.year + 1)
    ∧ (now.month < 7 → current_season_cyear now = now.year)
    ∧ (∀ y h m s, current_season_cyear ⟨y, 6, 30, h, m, s⟩ = y
        ∧ current_season_cyear ⟨y, 7, 1, h, m, s⟩ = y + 1) := by
  intro now
  refine ⟨fun h => by simp [current_season_cyear, h], fun h => ?_, fun y h m s => ?_⟩
  · simp [current_season_cyear, Nat.not_le.mpr h]
  · exact ⟨by simp [current_season_cyear], by simp [current_season_cyear]⟩

theorem c7_witness :
    (7 ≤ (⟨2025, 10, 5, 0, 0, 0⟩ : DateTime).month
      ∧ current_season_cyear ⟨2025, 10, 5, 0, 0, 0⟩ = 2026)
    ∧ ((⟨2025, 3, 5, 0, 0, 0⟩ : DateTime).month < 7
      ∧ current_season_cyear ⟨2025, 3, 5, 0, 0, 0⟩ = 2025) :=
  ⟨⟨by decide, (c7_season_year ⟨2025, 10, 5, 0, 0, 0⟩).1 (by decide)⟩,
   ⟨by decide, (c7_season_year ⟨2025, 3, 5, 0, 0, 0⟩).2.1 (by decide)⟩⟩

/-- C10: when the first time match in a candidate's neighbourhood carries an
out-of-range hour or minute, the instant construction fails and the whole
candidate is dropped — no fall-back to the 00:00 default and no later time
match is consulted. -/
theorem c10_bad_time_drop :
    ∀ (now : DateTime) (neighOf : String → String) (cand : String),
      24 ≤ (findTime (neighOf cand)).1 ∨ 60 ≤ (findTime (neighOf cand)).2 →
      processCandidate now neighOf cand = none := by
  intro now neighOf cand h
  rw [processCandidate_eq, parseCandDate_none_of_badTime _ _ _ h]

theorem c10_witness :
    (24 ≤ (findTime ((fun _ => "45:99 and later 21:15") "28/10/2030")).1
      ∨ 60 ≤ (findTime ((fun _ => "45:99 and later 21:15") "28/10/2030")).2)
    ∧ processCandidate ⟨2026, 1, 1, 0, 0, 0⟩ (fun _ => "45:99 and later 21:15") "28/10/2030"
        = none :=
  ⟨Or.inl (by decide),
   c10_bad_time_drop ⟨2026, 1, 1, 0, 0, 0⟩ (fun _ => "45:99 and later 21:15") "28/10/2030"
     (Or.inl (by decide))⟩

/-- C2 counterexample: a candidate whose parsed instant is exactly equal to
"now" is retained by the builder, not excluded — the filter only drops
instants strictly earlier than "now". -/
theorem c2_counterexample :
    parseEventsFrom ["1/5/2026"] (fun _ => "") ⟨2026, 5, 1, 0, 0, 0⟩
      = [⟨⟨2026, 5, 1, 0, 0, 0⟩, "Maccabi TLV – Game", ""⟩]
    ∧ (⟨⟨2026, 5, 1, 0, 0, 0⟩, "Maccabi TLV – Game", ""⟩ : Event).start
        = ⟨2026, 5, 1, 0, 0, 0⟩ := by
  exact ⟨by decide, rfl⟩

/-- C2 (amended): candidates whose parsed instant is strictly earlier than
"now" are excluded, and every retained event's start is not strictly earlier
than "now"; but a candidate whose instant equals "now" is retained — the
filter keeps exactly the instants greater than or equal to "now". -/
theorem c2_future_filter (now : DateTime) (neighOf : String → String) :
    (∀ (cands : List String), ∀ e ∈ parseEventsFrom cands neighOf now,
        dtLtb e.start now = false)
    ∧ (∀ (cand : String) (dt : DateTime),
        parseCandDate cand (findTime (neighOf cand)).1 (findTime (neighOf cand)).2
            = some dt →
          (dtLtb dt now = true → processCandidate now neighOf cand = none)
          ∧ (dtLtb dt now = false →
              processCandidate now neighOf cand = some (mkEvent dt (neighOf cand)))) := by
  constructor
  · intro cands e he
    rcases mem_parseEventsFrom he with ⟨c, hc⟩
    exact processCandidate_some_start hc
  · intro cand dt hp
    constructor
    · intro hlt
      rw [processCandidate_eq, hp]
      dsimp only
      rw [if_pos hlt]
    · intro hlt
      rw [processCandidate_eq, hp]
      dsimp only
      rw [if_neg (by simp [hlt])]

theorem c2_witness :
    (parseCandDate "1/5/2026" (findTime ((fun _ => "") "1/5/2026")).1
        (findTime ((fun _ => "") "1/5/2026")).2 = some ⟨2026, 5, 1, 0, 0, 0⟩)
    ∧ dtLtb ⟨2026, 5, 1, 0, 0, 0⟩ ⟨2026, 5, 1, 0, 0, 0⟩ = false
    ∧ processCandidate ⟨2026, 5, 1, 0, 0, 0⟩ (fun _ => "") "1/5/2026"
        = some (mkEvent ⟨2026, 5, 1, 0, 0, 0⟩ ((fun _ => "") "1/5/2026")) :=
  ⟨by decide, by decide,
   ((c2_future_filter ⟨2026, 5, 1, 0, 0, 0⟩ (fun _ => "")).2 "1/5/2026"
       ⟨2026, 5, 1, 0, 0, 0⟩ (by decide)).2 (by decide)⟩

/-! ## Candidate-list lemmas (for claim C8) -/

theorem dedupStrAux_congr :
    ∀ (l : List String) (seen1 seen2 : List String),
      (∀ s, s ∈ seen1 ↔ s ∈ seen2) →
      dedupStrAux seen1 l = dedupStrAux seen2 l := by
  intro l
  induction l with
  | nil => intro _ _ _; rfl
  | cons s rest ih =>
    intro seen1 seen2 hiff
    by_cases hs : s ∈ seen1
    · rw [show dedupStrAux seen1 (s :: rest) = dedupStrAux seen1 rest from by
        simp [dedupStrAux, hs]]
      rw [show dedupStrAux seen2 (s :: rest) = dedupStrAux seen2 rest from by
        simp [dedupStrAux, (hiff s).mp hs]]
      exact ih seen1 seen2 hiff
    · have hs2 : s ∉ seen2 := fun h => hs ((hiff s).mpr h)
      rw [show dedupStrAux seen1 (s :: rest) = s :: dedupStrAux (s :: seen1) rest from by
        simp [dedupStrAux, hs]]
      rw [show dedupStrAux seen2 (s :: rest) = s :: dedupStrAux (s :: seen2) rest from by
        simp [dedupStrAux, hs2]]
      congr 1
      refine ih _ _ (fun t => ?_)
      simp [List.mem_cons, hiff t]

theorem dedupStrAux_cons_notin (c : String) :
    ∀ (l : List String) (seen : List String), c ∉ l →
      dedupStrAux (c :: seen) l = dedupStrAux seen l := by
  intro l
  induction l with
  | nil => intro _ _; rfl
  | cons s rest ih =>
    intro seen hc
    have hsc : s ≠ c := fun h => hc (h ▸ List.mem_cons_self _ _)
    have hrest : c ∉ rest := fun h => hc (List.mem_cons_of_mem _ h)
    by_cases hs : s ∈ seen
    · rw [show dedupStrAux (c :: seen) (s :: rest) = dedupStrAux (c :: seen) rest from by
        simp [dedupStrAux, List.mem_cons, hs]]
      rw [show dedupStrAux seen (s :: rest) = dedupStrAux seen rest from by
        simp [dedupStrAux, hs]]
      exact ih seen hrest
    · have hs2 : s ∉ c :: seen := by simp [List.mem_cons, hsc, hs]
      rw [show dedupStrAux (c :: seen) (s :: rest) = s :: dedupStrAux (s :: c :: seen) rest from by
        simp [dedupStrAux, hs2]]
      rw [show dedupStrAux seen (s :: rest) = s :: dedupStrAux (s :: seen) rest from by
        simp [dedupStrAux, hs]]
      congr 1
      rw [dedupStrAux_congr rest (s :: c :: seen) (c :: s :: seen) (by
        intro t; simp [List.mem_cons]; tauto)]
      exact ih (s :: seen) hrest

theorem filterMap_insertStr {α : Type} (f : String → Option α) (c : String)
    (hf : f c = none) :
    ∀ L : List String, (insertStr c L).filterMap f = L.filterMap f := by
  intro L
  induction L with
  | nil => simp [insertStr, List.filterMap, hf]
  | cons t rest ih =>
    by_cases hc : strLeb c t = true
    · rw [show insertStr c (t :: rest) = c :: t :: rest from by simp [insertStr, hc]]
      simp [List.filterMap_cons, hf]
    · rw [show insertStr c (t :: rest) = t :: insertStr c rest from by simp [insertStr, hc]]
      simp only [List.filterMap_cons]
      cases f t with
      | none => exact ih
      | some v => rw [ih]

/-- C8: a candidate whose date/time parsing fails (the absorbed exception,
modelled as `none`) is silently dropped and contributes nothing — the batch
of remaining candidates produces exactly the same final event list. -/
theorem c8_parse_failure_absorbed :
    ∀ (now : DateTime) (neighOf : String → String) (cands : List String) (c : String),
      processCandidate now neighOf c = none → c ∉ cands →
      parseEventsFrom (c :: cands) neighOf now = parseEventsFrom cands neighOf now := by
  intro now neighOf cands c hnone hnotin
  show List.take 200 (sortEvents (dedupFirst []
      (List.filterMap (processCandidate now neighOf) (sortStr (dedupStrAux [] (c :: cands))))))
    = List.take 200 (sortEvents (dedupFirst []
      (List.filterMap (processCandidate now neighOf) (sortStr (dedupStrAux [] cands)))))
  rw [show dedupStrAux [] (c :: cands) = c :: dedupStrAux [c] cands from by
    simp [dedupStrAux]]
  rw [dedupStrAux_cons_notin c cands [] hnotin]
  rw [show sortStr (c :: dedupStrAux [] cands) = insertStr c (sortStr (dedupStrAux [] cands))
    from rfl]
  rw [filterMap_insertStr _ c hnone]

theorem c8_witness :
    processCandidate ⟨2026, 1, 1, 0, 0, 0⟩ (fun _ => "") "31/02/2026" = none
    ∧ "31/02/2026" ∉ ["28/10/2026"]
    ∧ parseEventsFrom ["31/02/2026", "28/10/2026"] (fun _ => "") ⟨2026, 1, 1, 0, 0, 0⟩
        = parseEventsFrom ["28/10/2026"] (fun _ => "") ⟨2026, 1, 1, 0, 0, 0⟩ :=
  ⟨by decide, by decide,
   c8_parse_failure_absorbed ⟨2026, 1, 1, 0, 0, 0⟩ (fun _ => "") ["28/10/2026"] "31/02/2026"
     (by decide) (by decide)⟩

/-- C6: the event-builder's final result is the ascending sort by start
instant of the deduplicated future events, truncated to at most 200: it is
non-decreasing by start, its length is the minimum of 200 and the number of
deduplicated events, and every retained event starts no later than every
event cut off by the cap. -/
theorem c6_sort_cap :
    ∀ (cands : List String) (neighOf : String → String) (now : DateTime),
      parseEventsFrom cands neighOf now
        = (sortEvents (dedupFirst [] ((sortStr (dedupStrAux [] cands)).filterMap
            (processCandidate now neighOf)))).take 200
      ∧ List.Pairwise (fun a b => dtLeb a.start b.start = true)
          (parseEventsFrom cands neighOf now)
      ∧ (parseEventsFrom cands neighOf now).length
          = min 200 (sortEvents (dedupFirst [] ((sortStr (dedupStrAux [] cands)).filterMap
              (processCandidate now neighOf)))).length
      ∧ ∀ x ∈ parseEventsFrom cands neighOf now,
          ∀ y ∈ (sortEvents (dedupFirst [] ((sortStr (dedupStrAux [] cands)).filterMap
              (processCandidate now neighOf)))).drop 200,
            dtLeb x.start y.start = true := by
  intro cands neighOf now
  have heq : parseEventsFrom cands neighOf now
      = (sortEvents (dedupFirst [] ((sortStr (dedupStrAux [] cands)).filterMap
          (processCandidate now neighOf)))).take 200 := rfl
  have hpw := sortEvents_pairwise (dedupFirst [] ((sortStr (dedupStrAux [] cands)).filterMap
      (processCandidate now neighOf)))
  refine ⟨heq, ?_, ?_, ?_⟩
  · rw [heq]
    exact List.Pairwise.sublist (List.take_sublist _ _) hpw
  · rw [heq]
    exact List.length_take _ _
  · intro x hx y hy
    rw [heq] at hx
    have hsplit := hpw
    rw [← List.take_append_drop 200 (sortEvents (dedupFirst []
        ((sortStr (dedupStrAux [] cands)).filterMap (processCandidate now neighOf))))] at hsplit
    exact (List.pairwise_append.mp hsplit).2.2 x hx y hy

theorem c6_witness :
    List.Pairwise (fun a b => dtLeb a.start b.start = true)
      (parseEventsFrom ["2/11/2030", "28/10/2030"] (fun _ => "") ⟨2026, 1, 1, 0, 0, 0⟩)
    ∧ (∀ y ∈ (sortEvents (dedupFirst []
          ((sortStr (dedupStrAux [] ["2/11/2030", "28/10/2030"])).filterMap
            (processCandidate ⟨2026, 1, 1, 0, 0, 0⟩ (fun _ => ""))))).drop 200,
        dtLeb (⟨⟨2030, 10, 28, 0, 0, 0⟩, "Maccabi TLV – Game", ""⟩ : Event).start y.start = true)
    ∧ parseEventsFrom ["2/11/2030", "28/10/2030"] (fun _ => "") ⟨2026, 1, 1, 0, 0, 0⟩
        = [⟨⟨2030, 10, 28, 0, 0, 0⟩, "Maccabi TLV – Game", ""⟩,
           ⟨⟨2030, 11, 2, 0, 0, 0⟩, "Maccabi TLV – Game", ""⟩] :=
  ⟨(c6_sort_cap ["2/11/2030", "28/10/2030"] (fun _ => "") ⟨2026, 1, 1, 0, 0, 0⟩).2.1,
   (c6_sort_cap ["2/11/2030", "28/10/2030"] (fun _ => "") ⟨2026, 1, 1, 0, 0, 0⟩).2.2.2
     ⟨⟨2030, 10, 28, 0, 0, 0⟩, "Maccabi TLV – Game", ""⟩ (by decide),
   by decide⟩

/-- C9: with no date-matching substrings in the page text the builder
returns the empty sequence, and the serializer on an empty event list still
emits the full calendar header and closing line — and none of its lines is
a `VEVENT` delimiter. -/
theorem c9_empty_calendar :
    ∀ (text : String) (neighOf : String → String) (now : DateTime)
      (th : String → Nat) (un : DateTime) (prodid : String),
      findCandidateDates text = [] →
      parse_events text neighOf now = []
      ∧ icsLines th un [] prodid
          = ["BEGIN:VCALENDAR", "VERSION:2.0", "PRODID:" ++ prodid, "CALSCALE:GREGORIAN",
             "METHOD:PUBLISH", "X-WR-CALNAME:Maccabi Tel Aviv BC (Auto)",
             "X-WR-TIMEZONE:Asia/Jerusalem", "END:VCALENDAR"]
      ∧ (∀ l ∈ icsLines th un [] prodid, l ≠ "BEGIN:VEVENT" ∧ l ≠ "END:VEVENT") := by
  intro text neighOf now th un prodid h
  refine ⟨?_, rfl, ?_⟩
  · unfold parse_events
    rw [h]
    rfl
  · intro l hl
    have hpro : ∀ s : String, ("PRODID:" ++ s) ≠ "BEGIN:VEVENT" ∧ ("PRODID:" ++ s) ≠ "END:VEVENT" := by
      intro s
      constructor <;> (intro hx; have h2 := congrArg String.data hx; simp at h2)
    rw [show icsLines th un [] prodid
        = ["BEGIN:VCALENDAR", "VERSION:2.0", "PRODID:" ++ prodid, "CALSCALE:GREGORIAN",
           "METHOD:PUBLISH", "X-WR-CALNAME:Maccabi Tel Aviv BC (Auto)",
           "X-WR-TIMEZONE:Asia/Jerusalem", "END:VCALENDAR"] from rfl] at hl
    simp only [List.mem_cons, List.not_mem_nil, or_false] at hl
    rcases hl with rfl | rfl | rfl | rfl | rfl | rfl | rfl | rfl
    · exact ⟨by decide, by decide⟩
    · exact ⟨by decide, by decide⟩
    · exact hpro prodid
    · exact ⟨by decide, by decide⟩
    · exact ⟨by decide, by decide⟩
    · exact ⟨by decide, by decide⟩
    · exact ⟨by decide, by decide⟩
    · exact ⟨by decide, by decide⟩

theorem c9_witness :
    findCandidateDates "Maccabi vs Panathinaikos, no date given" = []
    ∧ parse_events "Maccabi vs Panathinaikos, no date given" (fun _ => "")
        ⟨2026, 1, 1, 0, 0, 0⟩ = [] :=
  ⟨by decide,
   (c9_empty_calendar "Maccabi vs Panathinaikos, no date given" (fun _ => "")
      ⟨2026, 1, 1, 0, 0, 0⟩ (fun _ => 0) ⟨2026, 1, 1, 0, 0, 0⟩ "p" (by decide)).1⟩

/-! ## Serialized-line lemmas (for claim C1) -/

theorem mem_icsLines_of_event {th : String → Nat} {un : DateTime} {evs : List Event}
    {prodid : String} {ev : Event} (hev : ev ∈ evs) {x : String}
    (hx : x ∈ eventLines th un ev) : x ∈ icsLines th un evs prodid := by
  unfold icsLines
  refine List.mem_append.mpr (Or.inl (List.mem_append.mpr (Or.inr ?_)))
  exact List.mem_flatten.mpr ⟨eventLines th un ev, List.mem_map.mpr ⟨ev, hev, rfl⟩, hx⟩

theorem eventLines_no_dtend (th : String → Nat) (un : DateTime) (ev : Event) :
    ∀ l ∈ eventLines th un ev, "DTEND".data.isPrefixOf l.data = false := by
  intro l hl
  simp only [eventLines] at hl
  rcases List.mem_append.mp hl with h5 | hend
  · rcases List.mem_append.mp h5 with hfixed | hite
    · simp only [List.mem_cons, List.not_mem_nil, or_false] at hfixed
      rcases hfixed with rfl | rfl | rfl | rfl | rfl
      · decide
      · simp [String.data_append, List.isPrefixOf]
      · simp [String.data_append, List.isPrefixOf]
      · simp [String.data_append, List.isPrefixOf]
      · simp [String.data_append, List.isPrefixOf]
    · by_cases hc : ics_escape ev.location ≠ ""
      · rw [if_pos hc] at hite
        simp only [List.mem_singleton] at hite
        subst hite
        simp [String.data_append, List.isPrefixOf]
      · rw [if_neg hc] at hite
        cases hite
  · simp only [List.mem_singleton] at hend
    subst hend
    decide

/-- C1 (amended): built events carry only a start instant — the event
record has no end field and the serializer emits no `DTEND` line at all;
every event contributes `UID`, `DTSTAMP`, a `DTSTART` tagged with the fixed
source timezone, and `SUMMARY` lines to the serialized document. -/
theorem c1_no_end_no_dtend :
    ∀ (th : String → Nat) (un : DateTime) (evs : List Event) (prodid : String),
      (∀ ev ∈ evs,
        ("UID:" ++ ("maccabi-" ++ fmtBasic ev.start ++ "-" ++ toString (th ev.title) ++ "@ofir"))
            ∈ icsLines th un evs prodid
        ∧ ("DTSTAMP:" ++ fmtBasic un ++ "Z") ∈ icsLines th un evs prodid
        ∧ ("DTSTART;TZID=Asia/Jerusalem:" ++ fmtBasic ev.start) ∈ icsLines th un evs prodid
        ∧ ("SUMMARY:" ++ ics_escape ev.title) ∈ icsLines th un evs prodid)
      ∧ (∀ l ∈ icsLines th un evs prodid, "DTEND".data.isPrefixOf l.data = false) := by
  intro th un evs prodid
  constructor
  · intro ev hev
    refine ⟨mem_icsLines_of_event hev ?_, mem_icsLines_of_event hev ?_,
        mem_icsLines_of_event hev ?_, mem_icsLines_of_event hev ?_⟩ <;>
      simp [eventLines]
  · intro l hl
    unfold icsLines at hl
    rcases List.mem_append.mp hl with h1 | hend
    · rcases List.mem_append.mp h1 with hh | hf
      · simp only [icsHeader, List.mem_cons, List.not_mem_nil, or_false] at hh
        rcases hh with rfl | rfl | rfl | rfl | rfl | rfl | rfl
        · decide
        · decide
        · simp [String.data_append, List.isPrefixOf]
        · decide
        · decide
        · decide
        · decide
      · rcases List.mem_flatten.mp hf with ⟨ll, hlm, hlx⟩
        rcases List.mem_map.mp hlm with ⟨ev, _, rfl⟩
        exact eventLines_no_dtend th un ev l hlx
    · simp only [List.mem_singleton] at hend
      subst hend
      decide

set_option maxRecDepth 4000 in
/-- C1 counterexample: a serialized document with one event contains a
`VEVENT` block but no `DTEND` occurrence anywhere, so the claim that every
`VEVENT` block contains a `DTEND` line fails. -/
theorem c1_counterexample :
    containsStr (build_ics (fun _ => 0) ⟨2025, 10, 1, 0, 0, 0⟩
        [⟨⟨2025, 10, 28, 21, 15, 0⟩, "Maccabi TLV vs Panathinaikos (EuroLeague)", ""⟩]
        "-P-") "BEGIN:VEVENT" = true
    ∧ containsStr (build_ics (fun _ => 0) ⟨2025, 10, 1, 0, 0, 0⟩
        [⟨⟨2025, 10, 28, 21, 15, 0⟩, "Maccabi TLV vs Panathinaikos (EuroLeague)", ""⟩]
        "-P-") "DTEND" = false :=
  ⟨by decide, by decide⟩

theorem c1_witness :
    ("UID:" ++ ("maccabi-" ++ fmtBasic (⟨⟨2025, 10, 28, 21, 15, 0⟩, "T", ""⟩ : Event).start
        ++ "-" ++ toString ((fun _ => (5 : Nat)) (⟨⟨2025, 10, 28, 21, 15, 0⟩, "T", ""⟩ : Event).title) ++ "@ofir"))
        ∈ icsLines (fun _ => (5 : Nat)) ⟨2025, 10, 1, 0, 0, 0⟩
            [⟨⟨2025, 10, 28, 21, 15, 0⟩, "T", ""⟩] "-P-"
    ∧ "DTEND".data.isPrefixOf ("BEGIN:VCALENDAR" : String).data = false :=
  ⟨((c1_no_end_no_dtend (fun _ => (5 : Nat)) ⟨2025, 10, 1, 0, 0, 0⟩
      [⟨⟨2025, 10, 28, 21, 15, 0⟩, "T", ""⟩] "-P-").1
      ⟨⟨2025, 10, 28, 21, 15, 0⟩, "T", ""⟩ (by decide)).1,
   (c1_no_end_no_dtend (fun _ => (5 : Nat)) ⟨2025, 10, 1, 0, 0, 0⟩
      [⟨⟨2025, 10, 28, 21, 15, 0⟩, "T", ""⟩] "-P-").2 "BEGIN:VCALENDAR" (by decide)⟩

/-! ## Deduplication lemmas (for claim C3) -/

theorem dedupFirst_find {e : Event} :
    ∀ (l : List Event) (seen : List (String × String)), e ∈ dedupFirst seen l →
      evKeyIso e ∉ seen
      ∧ l.find? (fun x => decide (evKeyIso x = evKeyIso e)) = some e := by
  intro l
  induction l with
  | nil => intro seen h; cases h
  | cons x rest ih =>
    intro seen h
    by_cases hx : evKeyIso x ∈ seen
    · rw [show dedupFirst seen (x :: rest) = dedupFirst seen rest from by
        simp [dedupFirst, hx]] at h
      obtain ⟨hnot, hfind⟩ := ih seen h
      have hne : ¬ evKeyIso x = evKeyIso e := fun hk => hnot (hk ▸ hx)
      exact ⟨hnot, by rw [List.find?_cons_of_neg _ (by simp [hne])]; exact hfind⟩
    · rw [show dedupFirst seen (x :: rest) = x :: dedupFirst (evKeyIso x :: seen) rest from by
        simp [dedupFirst, hx]] at h
      rcases List.mem_cons.mp h with rfl | h2
      · exact ⟨hx, by rw [List.find?_cons_of_pos _ (by simp)]⟩
      · obtain ⟨hnot, hfind⟩ := ih _ h2
        have hne : ¬ evKeyIso x = evKeyIso e := fun hk =>
          hnot (by rw [← hk]; exact List.mem_cons_self _ _)
        have hnot2 : evKeyIso e ∉ seen := fun hk => hnot (List.mem_cons_of_mem _ hk)
        exact ⟨hnot2, by rw [List.find?_cons_of_neg _ (by simp [hne])]; exact hfind⟩

theorem dedupFirst_keys_nodup :
    ∀ (l : List Event) (seen : List (String × String)),
      ((dedupFirst seen l).map evKeyIso).Nodup := by
  intro l
  induction l with
  | nil => intro _; simp [dedupFirst]
  | cons x rest ih =>
    intro seen
    by_cases hx : evKeyIso x ∈ seen
    · rw [show dedupFirst seen (x :: rest) = dedupFirst seen rest from by
        simp [dedupFirst, hx]]
      exact ih seen
    · rw [show dedupFirst seen (x :: rest) = x :: dedupFirst (evKeyIso x :: seen) rest from by
        simp [dedupFirst, hx]]
      simp only [List.map_cons, List.nodup_cons]
      refine ⟨?_, ih _⟩
      intro hmem
      rcases List.mem_map.mp hmem with ⟨e, he, hke⟩
      exact (dedupFirst_find rest _ he).1 (hke ▸ List.mem_cons_self _ _)

theorem dedupFirst_keys_complete {e : Event} :
    ∀ (l : List Event) (seen : List (String × String)), e ∈ l →
      evKeyIso e ∈ seen ∨ evKeyIso e ∈ (dedupFirst seen l).map evKeyIso := by
  intro l
  induction l with
  | nil => intro _ h; cases h
  | cons x rest ih =>
    intro seen h
    by_cases hx : evKeyIso x ∈ seen
    · rw [show dedupFirst seen (x :: rest) = dedupFirst seen rest from by
        simp [dedupFirst, hx]]
      rcases List.mem_cons.mp h with rfl | h2
      · exact Or.inl hx
      · exact ih seen h2
    · rw [show dedupFirst seen (x :: rest) = x :: dedupFirst (evKeyIso x :: seen) rest from by
        simp [dedupFirst, hx]]
      rcases List.mem_cons.mp h with rfl | h2
      · exact Or.inr (by simp)
      · rcases ih (evKeyIso x :: seen) h2 with hin | hin
        · rcases List.mem_cons.mp hin with hk | hk
          · exact Or.inr (by simp [hk])
          · exact Or.inl hk
        · exact Or.inr (by simp [hin])

theorem dictInsert_keys (k : DateTime × String) (v : Event) :
    ∀ (d : List ((DateTime × String) × Event)),
      (dictInsert k v d).map (·.1)
        = if k ∈ d.map (·.1) then d.map (·.1) else d.map (·.1) ++ [k] := by
  intro d
  induction d with
  | nil => simp [dictInsert]
  | cons p rest ih =>
    obtain ⟨k2, v2⟩ := p
    by_cases hk : k = k2
    · subst hk
      simp [dictInsert]
    · rw [show dictInsert k v ((k2, v2) :: rest) = (k2, v2) :: dictInsert k v rest from by
        simp [dictInsert, hk]]
      simp only [List.map_cons, ih]
      by_cases hin : k ∈ rest.map (·.1)
      · simp [hin, hk]
      · simp [hin, hk]

theorem dictInsert_mem {k : DateTime × String} {v : Event}
    {p : (DateTime × String) × Event} :
    ∀ (d : List ((DateTime × String) × Event)), (d.map (·.1)).Nodup →
      p ∈ dictInsert k v d → p = (k, v) ∨ (p ∈ d ∧ p.1 ≠ k) := by
  intro d
  induction d with
  | nil =>
    intro _ h
    simp only [dictInsert, List.mem_singleton] at h
    exact Or.inl h
  | cons q rest ih =>
    obtain ⟨k2, v2⟩ := q
    intro hnd h
    have hk2notin : k2 ∉ rest.map (·.1) := by
      simp only [List.map_cons, List.nodup_cons] at hnd
      exact hnd.1
    have hndrest : (rest.map (·.1)).Nodup := by
      simp only [List.map_cons, List.nodup_cons] at hnd
      exact hnd.2
    by_cases hk : k = k2
    · subst hk
      rw [show dictInsert k v ((k, v2) :: rest) = (k, v) :: rest from by
        simp [dictInsert]] at h
      rcases List.mem_cons.mp h with rfl | h2
      · exact Or.inl rfl
      · refine Or.inr ⟨List.mem_cons_of_mem _ h2, fun hpk => ?_⟩
        exact hk2notin (hpk ▸ List.mem_map.mpr ⟨p, h2, rfl⟩)
    · rw [show dictInsert k v ((k2, v2) :: rest) = (k2, v2) :: dictInsert k v rest from by
        simp [dictInsert, hk]] at h
      rcases List.mem_cons.mp h with rfl | h2
      · exact Or.inr ⟨List.mem_cons_self _ _, by simpa using Ne.symm hk⟩
      · rcases ih hndrest h2 with h3 | ⟨h3, h4⟩
        · exact Or.inl h3
        · exact Or.inr ⟨List.mem_cons_of_mem _ h3, h4⟩

theorem dictFold_invariant :
    ∀ (rest processed : List Event) (d : List ((DateTime × String) × Event)),
      (d.map (·.1)).Nodup →
      (∀ p ∈ d, p.1 = evKeyDt p.2
        ∧ (processed.filter (fun x => decide (evKeyDt x = p.1))).getLast? = some p.2) →
      (∀ e ∈ processed, evKeyDt e ∈ d.map (·.1)) →
      ((rest.foldl (fun acc e => dictInsert (evKeyDt e) e acc) d).map (·.1)).Nodup
      ∧ (∀ p ∈ rest.foldl (fun acc e => dictInsert (evKeyDt e) e acc) d,
          p.1 = evKeyDt p.2
          ∧ (((processed ++ rest).filter (fun x => decide (evKeyDt x = p.1))).getLast?
              = some p.2))
      ∧ (∀ e ∈ processed ++ rest,
          evKeyDt e ∈ (rest.foldl (fun acc e => dictInsert (evKeyDt e) e acc) d).map (·.1)) := by
  intro rest
  induction rest with
  | nil =>
    intro processed d h1 h2 h3
    refine ⟨h1, ?_, ?_⟩
    · simpa only [List.foldl_nil, List.append_nil] using h2
    · simpa only [List.foldl_nil, List.append_nil] using h3
  | cons e rest2 ih =>
    intro processed d h1 h2 h3
    have hstep1 : ((dictInsert (evKeyDt e) e d).map (·.1)).Nodup := by
      rw [dictInsert_keys]
      by_cases hin : evKeyDt e ∈ d.map (·.1)
      · simpa [hin] using h1
      · simp only [hin, if_false]
        exact List.Nodup.append h1 (List.nodup_singleton _)
          (by simp [List.disjoint_singleton, hin])
    have hstep2 : ∀ p ∈ dictInsert (evKeyDt e) e d, p.1 = evKeyDt p.2
        ∧ (((processed ++ [e]).filter (fun x => decide (evKeyDt x = p.1))).getLast?
            = some p.2) := by
      intro p hp
      rcases dictInsert_mem d h1 hp with rfl | ⟨hpd, hpne⟩
      · refine ⟨rfl, ?_⟩
        rw [List.filter_append]
        rw [show List.filter (fun x => decide (evKeyDt x = (evKeyDt e, e).1)) [e] = [e]
          from by simp]
        exact List.getLast?_concat _
      · obtain ⟨hk, hlast⟩ := h2 p hpd
        refine ⟨hk, ?_⟩
        rw [List.filter_append]
        rw [show List.filter (fun x => decide (evKeyDt x = p.1)) [e] = [] from by
          simp [Ne.symm hpne]]
        rw [List.append_nil]
        exact hlast
    have hstep3 : ∀ x ∈ processed ++ [e],
        evKeyDt x ∈ (dictInsert (evKeyDt e) e d).map (·.1) := by
      intro x hx
      rw [dictInsert_keys]
      by_cases hin : evKeyDt e ∈ d.map (·.1)
      · rw [if_pos hin]
        rcases List.mem_append.mp hx with hxp | hxe
        · exact h3 x hxp
        · simp only [List.mem_singleton] at hxe
          subst hxe
          exact hin
      · rw [if_neg hin]
        rcases List.mem_append.mp hx with hxp | hxe
        · exact List.mem_append.mpr (Or.inl (h3 x hxp))
        · simp only [List.mem_singleton] at hxe
          subst hxe
          simp
    have hih := ih (processed ++ [e]) (dictInsert (evKeyDt e) e d) hstep1 hstep2 hstep3
    rw [List.append_assoc] at hih
    simp only [List.singleton_append] at hih
    simpa only [List.foldl_cons] using hih

/-- C3 (amended): both deduplications retain exactly one event per key and
lose no key; within one parse batch the retained event is the first
occurrence in iteration order, but in the orchestrator's merge the dict
comprehension reassigns repeated keys, so the retained event is the last
occurrence in iteration order. -/
theorem c3_dedup_semantics : ∀ (l : List Event),
    ((dedupFirst [] l).map evKeyIso).Nodup
    ∧ (∀ e ∈ l, evKeyIso e ∈ (dedupFirst [] l).map evKeyIso)
    ∧ (∀ e ∈ dedupFirst [] l,
        l.find? (fun x => decide (evKeyIso x = evKeyIso e)) = some e)
    ∧ ((mergeDict l).map evKeyDt).Nodup
    ∧ (∀ e ∈ l, evKeyDt e ∈ (mergeDict l).map evKeyDt)
    ∧ (∀ e ∈ mergeDict l,
        (l.filter (fun x => decide (evKeyDt x = evKeyDt e))).getLast? = some e) := by
  intro l
  have hfold := dictFold_invariant l [] [] (by simp) (by simp) (by simp)
  simp only [List.nil_append] at hfold
  obtain ⟨hnd, hent, hcomp⟩ := hfold
  have hkeys : (mergeDict l).map evKeyDt
      = (l.foldl (fun acc e => dictInsert (evKeyDt e) e acc) []).map (·.1) := by
    unfold mergeDict
    rw [List.map_map]
    apply List.map_congr_left
    intro p hp
    exact ((hent p hp).1).symm
  refine ⟨dedupFirst_keys_nodup l [], ?_, ?_, ?_, ?_, ?_⟩
  · intro e he
    rcases dedupFirst_keys_complete l [] he with h | h
    · cases h
    · exact h
  · intro e he
    exact (dedupFirst_find l [] he).2
  · rw [hkeys]
    exact hnd
  · intro e he
    rw [hkeys]
    exact hcomp e he
  · intro e he
    unfold mergeDict at he
    rcases List.mem_map.mp he with ⟨p, hp, rfl⟩
    have hpe := hent p hp
    rw [← hpe.1]
    exact hpe.2

/-- C3 counterexample: two merged events with the same (start, title) key
but different locations — the orchestrator's dict comprehension keeps the
second (last) one, not the first occurrence. -/
theorem c3_counterexample :
    mergeDict [⟨⟨2026, 5, 1, 0, 0, 0⟩, "T", "L1"⟩, ⟨⟨2026, 5, 1, 0, 0, 0⟩, "T", "L2"⟩]
      = [⟨⟨2026, 5, 1, 0, 0, 0⟩, "T", "L2"⟩]
    ∧ (⟨⟨2026, 5, 1, 0, 0, 0⟩, "T", "L1"⟩ : Event) ≠ ⟨⟨2026, 5, 1, 0, 0, 0⟩, "T", "L2"⟩ :=
  ⟨by decide, by decide⟩

theorem c3_witness :
    ([⟨⟨2026, 5, 1, 0, 0, 0⟩, "T", "L1"⟩, ⟨⟨2026, 5, 1, 0, 0, 0⟩, "T", "L2"⟩] : List Event).find?
        (fun x => decide (evKeyIso x = evKeyIso ⟨⟨2026, 5, 1, 0, 0, 0⟩, "T", "L1"⟩))
      = some ⟨⟨2026, 5, 1, 0, 0, 0⟩, "T", "L1"⟩
    ∧ (([⟨⟨2026, 5, 1, 0, 0, 0⟩, "T", "L1"⟩, ⟨⟨2026, 5, 1, 0, 0, 0⟩, "T", "L2"⟩] : List Event).filter
        (fun x => decide (evKeyDt x = evKeyDt ⟨⟨2026, 5, 1, 0, 0, 0⟩, "T", "L2"⟩))).getLast?
      = some ⟨⟨2026, 5, 1, 0, 0, 0⟩, "T", "L2"⟩ :=
  ⟨(c3_dedup_semantics [⟨⟨2026, 5, 1, 0, 0, 0⟩, "T", "L1"⟩,
      ⟨⟨2026, 5, 1, 0, 0, 0⟩, "T", "L2"⟩]).2.2.1
      ⟨⟨2026, 5, 1, 0, 0, 0⟩, "T", "L1"⟩ (by decide),
   (c3_dedup_semantics [⟨⟨2026, 5, 1, 0, 0, 0⟩, "T", "L1"⟩,
      ⟨⟨2026, 5, 1, 0, 0, 0⟩, "T", "L2"⟩]).2.2.2.2.2
      ⟨⟨2026, 5, 1, 0, 0, 0⟩, "T", "L2"⟩ (by decide)⟩
